import Mathlib

/-!
Verification of the Metropolis-Hastings sampler and the random-number
experiments of the Monte_Carlo repository.

The embedding follows the notebooks:

* metropolis_algorithm (Metropolis-Hastings_exponential.ipynb):

    def metropolis_algorithm(rng, chain_start, n, logtarget, candidate_generating_density):
        x = chain_start
        chain = np.zeros(n)
        accepted = 0
        for i in range(n):
            candidate = candidate_generating_density(x)
            if candidate >= 0:
                if np.log(rng.uniform()) < logtarget(candidate) - logtarget(x):
                    x = candidate
                    accepted += 1
            chain[i] = x
        print(f"Acceptance rate \x7baccepted/n\x7d")
        return chain

  Stateful pieces are passed explicitly: the random generator is a state of
  an arbitrary type sigma, rng.uniform is a function sigma -> R x sigma, and
  candidate_generating_density is a closure that also threads the generator
  state (in the notebook it captures the same rng and draws a normal variate
  from it).  np.zeros(n) raises ValueError for n < 0, and accepted/n raises
  ZeroDivisionError for n = 0, so the run is modelled as an Except value.
  np.log(0.0) is -infinity, modelled by the bottom of WithBot.

* rng_lambda (Verify_RNGs_with_lambdas.ipynb):

    def rng_lambda(n, candidate_generating_density):
        x = 0
        chain = np.zeros(n)
        for i in range(n):
            x = candidate_generating_density(x)
            chain[i] = x
        return chain

* the inverse-transform sampler for the exponential distribution
  (Monte_Carlo_transformation_of_random_variables.ipynb and
  Metropolis-Hastings_exponential.ipynb):

    X = -(1 / param) * np.log(1 - rng.rand(n))

NumPy RandomState generators are black boxes per the specification; a
seeded generator is modelled as a seed plus a position counter, with an
abstract stream function giving the draw values.
-/

namespace MonteCarlo

/-- A seeded NumPy RandomState generator, modelled as its seed together with
the number of draws already consumed.  The actual draw values are abstracted
by a stream function passed separately. -/
structure RState where
  seed : Nat
  counter : Nat
deriving DecidableEq, Repr

/-- Drawing one value from a seeded generator: the value is the stream
function applied to the seed and the current position, and the position
advances by one.  This models one call of a RandomState method. -/
def RState.next {R : Type} (f : Nat → Nat → R) (g : RState) : R × RState :=
  (f g.seed g.counter, ⟨g.seed, g.counter + 1⟩)

/-- The observable outputs of the loop of metropolis_algorithm: the chain
recorded so far, the accepted counter, the list of arguments at which
logtarget was evaluated (instrumentation of the calls, in call order), and
the final generator state. -/
structure MHOut (R σ : Type) where
  chain : List R
  accepted : Nat
  ltCalls : List R
  rng : σ
deriving DecidableEq, Repr

/-- The value of a successful metropolis_algorithm call: the returned chain,
the printed acceptance rate accepted/n, the instrumented logtarget call
arguments, and the final generator state. -/
structure MHResult (R σ : Type) where
  chain : List R
  acceptanceRate : R
  ltCalls : List R
  rng : σ
deriving DecidableEq, Repr

section Sampler

variable {R σ : Type} [LinearOrderedField R]

/-- One iteration of the loop body of metropolis_algorithm, as the evolution
of the pair (current state x, generator state): draw the candidate, and if
it is nonnegative and np.log of a fresh uniform draw is below the log-density
difference, move to the candidate; otherwise keep x.  The uniform draw is
consumed only when the candidate is nonnegative, exactly as in the code. -/
def mhStep (nplog : R → WithBot R) (logtarget : R → R)
    (cgd : R → σ → R × σ) (uniform : σ → R × σ) (p : R × σ) : R × σ :=
  if 0 ≤ (cgd p.1 p.2).1 then
    if nplog (uniform (cgd p.1 p.2).2).1 <
        ((logtarget (cgd p.1 p.2).1 - logtarget p.1 : R) : WithBot R) then
      ((cgd p.1 p.2).1, (uniform (cgd p.1 p.2).2).2)
    else
      (p.1, (uniform (cgd p.1 p.2).2).2)
  else
    (p.1, (cgd p.1 p.2).2)

/-- The acceptance predicate of one iteration started at the pair p: the
candidate passes the support test candidate >= 0 and np.log of the uniform
draw is below the log-density difference.  These are exactly the conditions
under which the code executes x = candidate; accepted += 1. -/
def mhAccepts (nplog : R → WithBot R) (logtarget : R → R)
    (cgd : R → σ → R × σ) (uniform : σ → R × σ) (p : R × σ) : Prop :=
  0 ≤ (cgd p.1 p.2).1 ∧
    nplog (uniform (cgd p.1 p.2).2).1 <
      ((logtarget (cgd p.1 p.2).1 - logtarget p.1 : R) : WithBot R)

instance (nplog : R → WithBot R) (logtarget : R → R)
    (cgd : R → σ → R × σ) (uniform : σ → R × σ) (p : R × σ) :
    Decidable (mhAccepts nplog logtarget cgd uniform p) := by
  unfold mhAccepts; infer_instance

/-- The loop for i in range(n) of metropolis_algorithm, transcribed
directly: each iteration draws a candidate; when the candidate is
nonnegative both logtarget(candidate) and logtarget(x) are evaluated (in
that order) and a uniform draw is consumed for the acceptance test;
afterwards the post-decision x is recorded into the chain. -/
def mhLoop (nplog : R → WithBot R) (logtarget : R → R)
    (cgd : R → σ → R × σ) (uniform : σ → R × σ) : Nat → R → σ → MHOut R σ
  | 0, _, s => ⟨[], 0, [], s⟩
  | n + 1, x, s =>
    if 0 ≤ (cgd x s).1 then
      if nplog (uniform (cgd x s).2).1 <
          ((logtarget (cgd x s).1 - logtarget x : R) : WithBot R) then
        let rest := mhLoop nplog logtarget cgd uniform n (cgd x s).1
          (uniform (cgd x s).2).2
        ⟨(cgd x s).1 :: rest.chain, rest.accepted + 1,
          (cgd x s).1 :: x :: rest.ltCalls, rest.rng⟩
      else
        let rest := mhLoop nplog logtarget cgd uniform n x
          (uniform (cgd x s).2).2
        ⟨x :: rest.chain, rest.accepted,
          (cgd x s).1 :: x :: rest.ltCalls, rest.rng⟩
    else
      let rest := mhLoop nplog logtarget cgd uniform n x (cgd x s).2
      ⟨x :: rest.chain, rest.accepted, rest.ltCalls, rest.rng⟩

/-- metropolis_algorithm.  The step count n is an integer, as in Python:
np.zeros(n) raises ValueError: negative dimensions are not allowed for
n < 0, and for n = 0 the final print evaluates accepted/n and raises
ZeroDivisionError: division by zero, so only n >= 1 returns normally,
yielding the chain (the return value) and the acceptance rate accepted/n
(the printed value). -/
def metropolis_algorithm (nplog : R → WithBot R) (uniform : σ → R × σ)
    (chain_start : R) (n : ℤ) (logtarget : R → R) (cgd : R → σ → R × σ)
    (s : σ) : Except String (MHResult R σ) :=
  if n < 0 then Except.error "ValueError: negative dimensions are not allowed"
  else
    let out := mhLoop nplog logtarget cgd uniform n.toNat chain_start s
    if n = 0 then Except.error "ZeroDivisionError: division by zero"
    else Except.ok ⟨out.chain, (out.accepted : R) / (n : R), out.ltCalls, out.rng⟩

/-- The number of accepted proposals among the first n iterations started
from chain state x and generator state s: the count of indices i < n whose
iteration, started at the state reached after i iterations, accepts. -/
def acceptedCount (nplog : R → WithBot R) (logtarget : R → R)
    (cgd : R → σ → R × σ) (uniform : σ → R × σ) (n : Nat) (x : R) (s : σ) : Nat :=
  List.countP
    (fun i => decide (mhAccepts nplog logtarget cgd uniform
      ((mhStep nplog logtarget cgd uniform)^[i] (x, s))))
    (List.range n)

end Sampler

/-- np.log restricted to the uniform draws in the interval from 0 to 1:
np.log(0.0) evaluates to -infinity (the bottom element), and to the real
logarithm on positive arguments. -/
noncomputable def npLog (u : ℝ) : WithBot ℝ :=
  if u = 0 then ⊥ else ((Real.log u : ℝ) : WithBot ℝ)

/-- rng_lambda from Verify_RNGs_with_lambdas.ipynb: iterate the closure n
times from the start value, recording each new value; the closure state
(the generator it may capture) is threaded explicitly. -/
def rng_lambda {R σ : Type} (cgd : R → σ → R × σ) : Nat → R → σ → List R
  | 0, _, _ => []
  | n + 1, x, s =>
    ((cgd x s).1) :: rng_lambda cgd n (cgd x s).1 (cgd x s).2

/-- The closure lambda x: rng.uniform(low=-1, high=1) capturing one shared
generator instance by reference: each call advances that instance. -/
def sharedClosure {R : Type} (f : Nat → Nat → R) : R → RState → R × RState :=
  fun _ g => RState.next f g

/-- The closure lambda x: RandomState(1729).uniform(low=-1, high=1)
constructing a fresh generator with a fixed seed on every call: each call
returns the first draw of a newly seeded generator and leaves no state
behind. -/
def freshClosure {R : Type} (f : Nat → Nat → R) (seed : Nat) : R → Unit → R × Unit :=
  fun _ _ => ((RState.next f ⟨seed, 0⟩).1, ())

/-- The inverse-transform sampler for the exponential distribution, applied
to one uniform draw u: the value -(1 / param) * np.log(1 - u), as in
exponential_rvs and in the transformation notebook. -/
noncomputable def exponential_rvs (param : ℝ) (u : ℝ) : ℝ :=
  -(1 / param) * Real.log (1 - u)

/-! Structural lemmas about the loop. -/

section Lemmas

variable {R σ : Type} [LinearOrderedField R]

/-- Unfolding one iteration of the loop through the step function: the new
chain entry is the first component of the step, the accepted counter grows
by one exactly on accepting iterations, and logtarget is called on the
candidate and on the current state exactly when the candidate passes the
support test. -/
theorem mhLoop_succ (nplog : R → WithBot R) (logtarget : R → R)
    (cgd : R → σ → R × σ) (uniform : σ → R × σ) (n : Nat) (x : R) (s : σ) :
    mhLoop nplog logtarget cgd uniform (n + 1) x s =
      ⟨(mhStep nplog logtarget cgd uniform (x, s)).1 ::
          (mhLoop nplog logtarget cgd uniform n
            (mhStep nplog logtarget cgd uniform (x, s)).1
            (mhStep nplog logtarget cgd uniform (x, s)).2).chain,
        (mhLoop nplog logtarget cgd uniform n
            (mhStep nplog logtarget cgd uniform (x, s)).1
            (mhStep nplog logtarget cgd uniform (x, s)).2).accepted +
          (if mhAccepts nplog logtarget cgd uniform (x, s) then 1 else 0),
        (if 0 ≤ (cgd x s).1 then [(cgd x s).1, x] else []) ++
          (mhLoop nplog logtarget cgd uniform n
            (mhStep nplog logtarget cgd uniform (x, s)).1
            (mhStep nplog logtarget cgd uniform (x, s)).2).ltCalls,
        (mhLoop nplog logtarget cgd uniform n
            (mhStep nplog logtarget cgd uniform (x, s)).1
            (mhStep nplog logtarget cgd uniform (x, s)).2).rng⟩ := by
  by_cases h1 : 0 ≤ (cgd x s).1
  · by_cases h2 : nplog (uniform (cgd x s).2).1 <
        ((logtarget (cgd x s).1 - logtarget x : R) : WithBot R)
    · simp [mhLoop, mhStep, mhAccepts, h1, h2]
    · simp [mhLoop, mhStep, mhAccepts, h1, h2]
  · simp [mhLoop, mhStep, mhAccepts, h1]

/-- The chain returned by n iterations from x, s records, at position i,
the chain state after i + 1 applications of the step function. -/
theorem mhLoop_chain (nplog : R → WithBot R) (logtarget : R → R)
    (cgd : R → σ → R × σ) (uniform : σ → R × σ) (n : Nat) (x : R) (s : σ) :
    (mhLoop nplog logtarget cgd uniform n x s).chain =
      (List.range n).map
        (fun i => ((mhStep nplog logtarget cgd uniform)^[i + 1] (x, s)).1) := by
  induction n generalizing x s with
  | zero => simp [mhLoop]
  | succ n ih =>
    rw [mhLoop_succ]
    rw [List.range_succ_eq_map, List.map_cons, List.map_map, ih]
    simp [Function.iterate_succ_apply, Function.comp]

/-- The accepted counter after n iterations equals the number of indices
i < n whose iteration accepts. -/
theorem mhLoop_accepted (nplog : R → WithBot R) (logtarget : R → R)
    (cgd : R → σ → R × σ) (uniform : σ → R × σ) (n : Nat) (x : R) (s : σ) :
    (mhLoop nplog logtarget cgd uniform n x s).accepted =
      acceptedCount nplog logtarget cgd uniform n x s := by
  induction n generalizing x s with
  | zero => simp [mhLoop, acceptedCount]
  | succ n ih =>
    rw [mhLoop_succ, ih]
    simp only [acceptedCount, List.range_succ_eq_map, List.countP_cons,
      List.countP_map]
    simp [Function.comp_def, Function.iterate_succ_apply]

/-- A non-accepting iteration keeps the chain state unchanged. -/
theorem mhStep_fst_of_not_accepts (nplog : R → WithBot R) (logtarget : R → R)
    (cgd : R → σ → R × σ) (uniform : σ → R × σ) (p : R × σ)
    (h : ¬ mhAccepts nplog logtarget cgd uniform p) :
    (mhStep nplog logtarget cgd uniform p).1 = p.1 := by
  unfold mhAccepts at h
  unfold mhStep
  split_ifs with h1 h2
  · exact absurd ⟨h1, h2⟩ h
  · rfl
  · rfl

/-- An accepting iteration moves the chain state to the proposed candidate. -/
theorem mhStep_fst_of_accepts (nplog : R → WithBot R) (logtarget : R → R)
    (cgd : R → σ → R × σ) (uniform : σ → R × σ) (p : R × σ)
    (h : mhAccepts nplog logtarget cgd uniform p) :
    (mhStep nplog logtarget cgd uniform p).1 = (cgd p.1 p.2).1 := by
  obtain ⟨h1, h2⟩ := h
  unfold mhStep
  rw [if_pos h1, if_pos h2]

/-- After one iteration, the chain state is either unchanged or a candidate
that passed the support test, hence nonnegative. -/
theorem mhStep_fst_cases (nplog : R → WithBot R) (logtarget : R → R)
    (cgd : R → σ → R × σ) (uniform : σ → R × σ) (p : R × σ) :
    (mhStep nplog logtarget cgd uniform p).1 = p.1 ∨
      0 ≤ (mhStep nplog logtarget cgd uniform p).1 := by
  unfold mhStep
  split_ifs with h1 h2
  · exact Or.inr h1
  · exact Or.inl rfl
  · exact Or.inl rfl

/-- For a step count of at least one, metropolis_algorithm returns normally,
with the chain, the acceptance rate accepted/n, the instrumented logtarget
calls and the final generator state of the loop. -/
theorem metropolis_algorithm_ok (nplog : R → WithBot R) (uniform : σ → R × σ)
    (chain_start : R) (n : ℤ) (logtarget : R → R) (cgd : R → σ → R × σ)
    (s : σ) (hn : 1 ≤ n) :
    metropolis_algorithm nplog uniform chain_start n logtarget cgd s =
      Except.ok
        ⟨(mhLoop nplog logtarget cgd uniform n.toNat chain_start s).chain,
          ((mhLoop nplog logtarget cgd uniform n.toNat chain_start s).accepted : R) /
            (n : R),
          (mhLoop nplog logtarget cgd uniform n.toNat chain_start s).ltCalls,
          (mhLoop nplog logtarget cgd uniform n.toNat chain_start s).rng⟩ := by
  unfold metropolis_algorithm
  rw [if_neg (by omega), if_neg (by omega)]

/-- Every argument ever passed to logtarget during a run started from a
nonnegative chain state is nonnegative, that is, passes the support test. -/
theorem mhLoop_ltCalls_nonneg (nplog : R → WithBot R) (logtarget : R → R)
    (cgd : R → σ → R × σ) (uniform : σ → R × σ) (n : Nat) (x : R) (s : σ)
    (hx : 0 ≤ x) :
    ∀ a ∈ (mhLoop nplog logtarget cgd uniform n x s).ltCalls, 0 ≤ a := by
  induction n generalizing x s with
  | zero => simp [mhLoop]
  | succ n ih =>
    intro a ha
    unfold mhLoop at ha
    split_ifs at ha with h1 h2
    · simp only [MHOut.mk.injEq] at ha
      rcases List.mem_cons.mp ha with rfl | ha
      · exact h1
      · rcases List.mem_cons.mp ha with rfl | ha
        · exact hx
        · exact ih _ _ h1 a ha
    · simp only at ha
      rcases List.mem_cons.mp ha with rfl | ha
      · exact h1
      · rcases List.mem_cons.mp ha with rfl | ha
        · exact hx
        · exact ih _ _ hx a ha
    · simp only at ha
      exact ih _ _ hx a ha

end Lemmas

/-! Claim theorems. -/

section Claims

variable {R σ : Type} [LinearOrderedField R]

/-- C1: for every run of the sampler with num_steps = n >= 1, the returned
chain has exactly n entries; the entry at each index i equals the sampler
state after the accept/reject decision of step i + 1; and whenever the
proposal of a step is rejected, the chain entry for that step equals the
chain entry of the previous step, the initial state for the first step. -/
theorem mh_chain_post_decision (nplog : R → WithBot R) (uniform : σ → R × σ)
    (x0 : R) (n : ℤ) (logtarget : R → R) (cgd : R → σ → R × σ) (s0 : σ)
    (hn : 1 ≤ n) :
    ∃ out : MHResult R σ,
      metropolis_algorithm nplog uniform x0 n logtarget cgd s0 = Except.ok out ∧
      out.chain.length = n.toNat ∧
      (∀ i, i < n.toNat →
        out.chain[i]? =
          some (((mhStep nplog logtarget cgd uniform)^[i + 1] (x0, s0)).1)) ∧
      (¬ mhAccepts nplog logtarget cgd uniform (x0, s0) →
        out.chain[0]? = some x0) ∧
      (∀ i, 0 < i → i < n.toNat →
        ¬ mhAccepts nplog logtarget cgd uniform
            ((mhStep nplog logtarget cgd uniform)^[i] (x0, s0)) →
        out.chain[i]? = out.chain[i - 1]?) := by
  have hlen : 1 ≤ n.toNat := by omega
  refine ⟨_, metropolis_algorithm_ok nplog uniform x0 n logtarget cgd s0 hn,
    ?_, ?_, ?_, ?_⟩
  · rw [mhLoop_chain]; simp
  · intro i hi
    rw [mhLoop_chain, List.getElem?_map, List.getElem?_range hi, Option.map_some']
  · intro hrej
    rw [mhLoop_chain, List.getElem?_map, List.getElem?_range hlen, Option.map_some']
    simp [mhStep_fst_of_not_accepts nplog logtarget cgd uniform (x0, s0) hrej]
  · intro i hi0 hin hrej
    dsimp only
    rw [mhLoop_chain, List.getElem?_map, List.getElem?_map,
      List.getElem?_range hin,
      List.getElem?_range (by omega : i - 1 < n.toNat)]
    have hstep : ((mhStep nplog logtarget cgd uniform)^[i + 1] (x0, s0)).1 =
        ((mhStep nplog logtarget cgd uniform)^[i] (x0, s0)).1 := by
      rw [Function.iterate_succ_apply']
      exact mhStep_fst_of_not_accepts nplog logtarget cgd uniform _ hrej
    have hi1 : i - 1 + 1 = i := by omega
    simp only [Option.map_some', hstep, hi1]

/-- C4: for every run with num_steps >= 1, the sampler produces the full
chain of length num_steps together with the acceptance rate, and the
acceptance rate equals the number of accepted proposals divided by
num_steps. -/
theorem mh_chain_and_acceptance_rate (nplog : R → WithBot R)
    (uniform : σ → R × σ) (x0 : R) (n : ℤ) (logtarget : R → R)
    (cgd : R → σ → R × σ) (s0 : σ) (hn : 1 ≤ n) :
    ∃ out : MHResult R σ,
      metropolis_algorithm nplog uniform x0 n logtarget cgd s0 = Except.ok out ∧
      out.chain.length = n.toNat ∧
      out.acceptanceRate =
        (acceptedCount nplog logtarget cgd uniform n.toNat x0 s0 : R) / (n : R) := by
  refine ⟨_, metropolis_algorithm_ok nplog uniform x0 n logtarget cgd s0 hn, ?_, ?_⟩
  · rw [mhLoop_chain]; simp
  · simp [mhLoop_accepted]

/-- C6: for every run with num_steps >= 1 and every index i of the returned
chain, the chain value at index i either passes the support test
(is nonnegative) or equals the chain value at index i - 1, the initial
state when i = 0; a proposal failing the support test never becomes the
entry of its own step. -/
theorem mh_chain_support_or_repeat (nplog : R → WithBot R)
    (uniform : σ → R × σ) (x0 : R) (n : ℤ) (logtarget : R → R)
    (cgd : R → σ → R × σ) (s0 : σ) (hn : 1 ≤ n) :
    ∃ out : MHResult R σ,
      metropolis_algorithm nplog uniform x0 n logtarget cgd s0 = Except.ok out ∧
      ∀ i, i < n.toNat →
        (∃ y, out.chain[i]? = some y ∧ 0 ≤ y) ∨
        out.chain[i]? = (if i = 0 then some x0 else out.chain[i - 1]?) := by
  refine ⟨_, metropolis_algorithm_ok nplog uniform x0 n logtarget cgd s0 hn, ?_⟩
  intro i hi
  rw [mhLoop_chain, List.getElem?_map, List.getElem?_range hi, Option.map_some']
  rcases mhStep_fst_cases nplog logtarget cgd uniform
      ((mhStep nplog logtarget cgd uniform)^[i] (x0, s0)) with hkeep | hsupp
  · right
    rw [Function.iterate_succ_apply'] at *
    by_cases h0 : i = 0
    · subst h0
      simp only [if_pos rfl]
      simpa using congrArg some hkeep
    · rw [if_neg h0]
      rw [List.getElem?_map, List.getElem?_range (by omega : i - 1 < n.toNat),
        Option.map_some']
      have hi1 : i - 1 + 1 = i := by omega
      rw [hi1]
      exact congrArg some hkeep
  · left
    rw [Function.iterate_succ_apply']
    exact ⟨_, rfl, hsupp⟩

/-- C5: under the documented precondition that the initial state lies in the
support of the target distribution, the log-target-density is only ever
evaluated at arguments that pass the support test; and in every step whose
candidate fails the support test the step is rejected unconditionally and
the log-density is not evaluated at that candidate. -/
theorem mh_logtarget_only_in_support (nplog : R → WithBot R)
    (uniform : σ → R × σ) (x0 : R) (n : ℤ) (logtarget : R → R)
    (cgd : R → σ → R × σ) (s0 : σ) (hn : 1 ≤ n) (hx0 : 0 ≤ x0) :
    ∃ out : MHResult R σ,
      metropolis_algorithm nplog uniform x0 n logtarget cgd s0 = Except.ok out ∧
      (∀ a ∈ out.ltCalls, 0 ≤ a) ∧
      (∀ i,
        ¬ 0 ≤ (cgd (((mhStep nplog logtarget cgd uniform)^[i] (x0, s0)).1)
            (((mhStep nplog logtarget cgd uniform)^[i] (x0, s0)).2)).1 →
        ((mhStep nplog logtarget cgd uniform)^[i + 1] (x0, s0)).1 =
            ((mhStep nplog logtarget cgd uniform)^[i] (x0, s0)).1 ∧
          (cgd (((mhStep nplog logtarget cgd uniform)^[i] (x0, s0)).1)
            (((mhStep nplog logtarget cgd uniform)^[i] (x0, s0)).2)).1 ∉
              out.ltCalls) := by
  refine ⟨_, metropolis_algorithm_ok nplog uniform x0 n logtarget cgd s0 hn,
    ?_, ?_⟩
  · exact mhLoop_ltCalls_nonneg nplog logtarget cgd uniform n.toNat x0 s0 hx0
  · intro i hc
    constructor
    · rw [Function.iterate_succ_apply']
      exact mhStep_fst_of_not_accepts nplog logtarget cgd uniform _
        (fun hacc => hc hacc.1)
    · intro hmem
      exact hc (mhLoop_ltCalls_nonneg nplog logtarget cgd uniform n.toNat x0 s0
        hx0 _ hmem)

/-- C7: invoking the sampler with a negative step count fails with the
invalid-argument error raised by np.zeros, and no chain is produced. -/
theorem mh_negative_steps_error (nplog : R → WithBot R) (uniform : σ → R × σ)
    (x0 : R) (n : ℤ) (logtarget : R → R) (cgd : R → σ → R × σ) (s0 : σ)
    (hn : n < 0) :
    metropolis_algorithm nplog uniform x0 n logtarget cgd s0 =
      Except.error "ValueError: negative dimensions are not allowed" := by
  unfold metropolis_algorithm
  rw [if_pos hn]

/-- C3 amended: invoking the sampler with num_steps = 0 does not complete:
the loop body never runs, but the final acceptance-rate computation divides
zero by zero and raises ZeroDivisionError, so no chain is returned. -/
theorem mh_zero_steps_error (nplog : R → WithBot R) (uniform : σ → R × σ)
    (x0 : R) (logtarget : R → R) (cgd : R → σ → R × σ) (s0 : σ) :
    metropolis_algorithm nplog uniform x0 0 logtarget cgd s0 =
      Except.error "ZeroDivisionError: division by zero" := by
  unfold metropolis_algorithm
  rw [if_neg (by omega), if_pos rfl]

/-- C8: two runs of the sampler with identical configuration, each given
its own independently constructed generator state built from the same seed
(seed s, zero draws consumed), produce identical results, in particular
identical output chains. -/
theorem mh_deterministic (nplog : R → WithBot R)
    (uniform : RState → R × RState) (x0 : R) (n : ℤ) (logtarget : R → R)
    (cgd : R → RState → R × RState) (seed : Nat) (g₁ g₂ : RState)
    (h₁ : g₁ = ⟨seed, 0⟩) (h₂ : g₂ = ⟨seed, 0⟩) :
    metropolis_algorithm nplog uniform x0 n logtarget cgd g₁ =
      metropolis_algorithm nplog uniform x0 n logtarget cgd g₂ := by
  rw [h₁, h₂]

end Claims

section RngClaims

/-- The chain produced by rng_lambda with the fresh-generator closure: every
entry is the first draw of the fixed seed. -/
theorem rng_lambda_fresh_eq {R : Type} (f : Nat → Nat → R) (seed : Nat)
    (n : Nat) (x : R) :
    rng_lambda (freshClosure f seed) n x () = List.replicate n (f seed 0) := by
  induction n generalizing x with
  | zero => rfl
  | succ n ih =>
    simp [rng_lambda, freshClosure, RState.next, List.replicate_succ, ih]

/-- The chain produced by rng_lambda with the shared-generator closure,
started at draw position k: the successive draws of the generator from
position k on. -/
theorem rng_lambda_shared_eq {R : Type} (f : Nat → Nat → R) (seed : Nat)
    (n : Nat) (x : R) (k : Nat) :
    rng_lambda (sharedClosure f) n x ⟨seed, k⟩ =
      (List.range n).map (fun i => f seed (k + i)) := by
  induction n generalizing x k with
  | zero => simp [rng_lambda]
  | succ n ih =>
    rw [List.range_succ_eq_map, List.map_cons, List.map_map]
    show (f seed k) :: rng_lambda (sharedClosure f) n (f seed k) ⟨seed, k + 1⟩ = _
    rw [ih]
    congr 1
    congr 1
    funext i
    simp only [Function.comp_apply]
    congr 1
    omega

/-- C9: when the chain-building loop is driven by a closure constructing a
fresh generator with a fixed seed on every call, every one of the n chain
entries equals the same single value (the first draw of that seed); whereas
the closure capturing one shared generator instance advances that instance
across calls, so the entries are the successive draws of that one
generator. -/
theorem rng_lambda_fresh_vs_shared {R : Type} (f : Nat → Nat → R)
    (seed : Nat) (n : Nat) (x0 : R) :
    rng_lambda (freshClosure f seed) n x0 () = List.replicate n (f seed 0) ∧
    rng_lambda (sharedClosure f) n x0 ⟨seed, 0⟩ = (List.range n).map (f seed) := by
  refine ⟨rng_lambda_fresh_eq f seed n x0, ?_⟩
  rw [rng_lambda_shared_eq]
  simp

end RngClaims

section RealClaims

/-- C2 amended: in any step whose candidate passes the support test and
whose uniform draw is exactly 0, the comparison np.log(u) < log_ratio holds
because np.log(0) is -infinity, below every finite log_ratio, so the step
results in an automatic acceptance: the state moves to the candidate and
the step counts as accepted; no error is raised. -/
theorem mh_zero_uniform_accepts {σ : Type} (logtarget : ℝ → ℝ)
    (cgd : ℝ → σ → ℝ × σ) (uniform : σ → ℝ × σ) (x : ℝ) (s : σ)
    (hc : 0 ≤ (cgd x s).1) (hu : (uniform (cgd x s).2).1 = 0) :
    mhAccepts npLog logtarget cgd uniform (x, s) ∧
      (mhStep npLog logtarget cgd uniform (x, s)).1 = (cgd x s).1 := by
  have hacc : mhAccepts npLog logtarget cgd uniform (x, s) := by
    refine ⟨hc, ?_⟩
    show npLog (uniform (cgd x s).2).1 < _
    rw [hu]
    simp only [npLog, if_pos rfl]
    exact WithBot.bot_lt_coe _
  exact ⟨hacc, mhStep_fst_of_accepts npLog logtarget cgd uniform (x, s) hacc⟩

/-- C10: for every uniform draw u in the interval [0,1) and every rate
parameter greater than 0, the argument of the logarithm in the inverse
transform is positive (so the logarithm is never taken of a non-positive
number) and the transformed value is nonnegative, hence lies in the support
of the exponential distribution. -/
theorem exponential_rvs_nonneg (param u : ℝ) (hp : 0 < param)
    (h0 : 0 ≤ u) (h1 : u < 1) :
    0 < 1 - u ∧ 0 ≤ exponential_rvs param u := by
  have hpos : 0 < 1 - u := by linarith
  refine ⟨hpos, ?_⟩
  have hlog : Real.log (1 - u) ≤ 0 := Real.log_nonpos (by linarith) (by linarith)
  have hinv : 0 ≤ 1 / param := by positivity
  unfold exponential_rvs
  nlinarith [mul_nonneg hinv (neg_nonneg.mpr hlog)]

end RealClaims

/-! Concrete configurations used by counterexamples and witnesses. -/

/-- A concrete log function over the rationals for witness runs: the witness
uniform source below always draws 0, and np.log(0.0) is -infinity, so every
consulted log value is bottom. -/
def qlog : ℚ → WithBot ℚ := fun _ => ⊥

/-- A concrete uniform source for witness runs: it always draws 0 and has
no state. -/
def quni : Unit → ℚ × Unit := fun _ => ((0 : ℚ), ())

/-- A concrete proposal closure for witness runs: it proposes the current
state itself and has no state. -/
def qcgd : ℚ → Unit → ℚ × Unit := fun x _ => (x, ())

/-- C3 counterexample: a concrete call with num_steps = 0 does not complete
normally with an empty chain; it fails with the division-by-zero error from
the acceptance-rate computation, returning no chain. -/
theorem mh_zero_steps_counterexample :
    metropolis_algorithm qlog quni 0 0 id qcgd () =
      Except.error "ZeroDivisionError: division by zero" := rfl

/-- C2 counterexample: a concrete one-step run in which the candidate 1 lies
in the support and the uniform draw is exactly 0.  The claim predicts an
automatic rejection (state kept at 0, nothing accepted), but the run returns
the chain [1] with acceptance rate 1: the step was accepted. -/
theorem mh_zero_uniform_counterexample :
    metropolis_algorithm npLog (fun _ : Unit => ((0 : ℝ), ())) 0 1
      (fun _ => (0 : ℝ)) (fun _ _ => ((1 : ℝ), ())) () =
      Except.ok ⟨[1], 1, [1, 0], ()⟩ := by
  have hb : (⊥ : WithBot ℝ) < 0 := WithBot.bot_lt_coe 0
  rw [metropolis_algorithm_ok _ _ _ _ _ _ _ (by norm_num)]
  norm_num [mhLoop, npLog, hb]

/-! Witnesses: each claim theorem with a hypothesis, applied at a concrete
input. -/

/-- Witness for C1 at a concrete one-step run over the rationals. -/
theorem mh_chain_post_decision_witness :
    ∃ out : MHResult ℚ Unit,
      metropolis_algorithm qlog quni 0 1 id qcgd () = Except.ok out ∧
      out.chain.length = (1 : ℤ).toNat ∧
      (∀ i, i < (1 : ℤ).toNat →
        out.chain[i]? =
          some (((mhStep qlog id qcgd quni)^[i + 1] ((0 : ℚ), ())).1)) ∧
      (¬ mhAccepts qlog id qcgd quni ((0 : ℚ), ()) →
        out.chain[0]? = some (0 : ℚ)) ∧
      (∀ i, 0 < i → i < (1 : ℤ).toNat →
        ¬ mhAccepts qlog id qcgd quni
            ((mhStep qlog id qcgd quni)^[i] ((0 : ℚ), ())) →
        out.chain[i]? = out.chain[i - 1]?) :=
  mh_chain_post_decision qlog quni 0 1 id qcgd () (by norm_num)

/-- Witness for C4 at a concrete two-step run over the rationals. -/
theorem mh_chain_and_acceptance_rate_witness :
    ∃ out : MHResult ℚ Unit,
      metropolis_algorithm qlog quni 0 2 id qcgd () = Except.ok out ∧
      out.chain.length = (2 : ℤ).toNat ∧
      out.acceptanceRate =
        (acceptedCount qlog id qcgd quni (2 : ℤ).toNat 0 () : ℚ) / ((2 : ℤ) : ℚ) :=
  mh_chain_and_acceptance_rate qlog quni 0 2 id qcgd () (by norm_num)

/-- Witness for C5 at a concrete one-step run over the rationals, started
inside the support. -/
theorem mh_logtarget_only_in_support_witness :
    ∃ out : MHResult ℚ Unit,
      metropolis_algorithm qlog quni 0 1 id qcgd () = Except.ok out ∧
      (∀ a ∈ out.ltCalls, 0 ≤ a) ∧
      (∀ i,
        ¬ 0 ≤ (qcgd (((mhStep qlog id qcgd quni)^[i] ((0 : ℚ), ())).1)
            (((mhStep qlog id qcgd quni)^[i] ((0 : ℚ), ())).2)).1 →
        ((mhStep qlog id qcgd quni)^[i + 1] ((0 : ℚ), ())).1 =
            ((mhStep qlog id qcgd quni)^[i] ((0 : ℚ), ())).1 ∧
          (qcgd (((mhStep qlog id qcgd quni)^[i] ((0 : ℚ), ())).1)
            (((mhStep qlog id qcgd quni)^[i] ((0 : ℚ), ())).2)).1 ∉
              out.ltCalls) :=
  mh_logtarget_only_in_support qlog quni 0 1 id qcgd () (by norm_num) le_rfl

/-- Witness for C6 at a concrete one-step run over the rationals. -/
theorem mh_chain_support_or_repeat_witness :
    ∃ out : MHResult ℚ Unit,
      metropolis_algorithm qlog quni 0 1 id qcgd () = Except.ok out ∧
      ∀ i, i < (1 : ℤ).toNat →
        (∃ y, out.chain[i]? = some y ∧ 0 ≤ y) ∨
        out.chain[i]? = (if i = 0 then some (0 : ℚ) else out.chain[i - 1]?) :=
  mh_chain_support_or_repeat qlog quni 0 1 id qcgd () (by norm_num)

/-- Witness for C7 at the concrete step count -1. -/
theorem mh_negative_steps_error_witness :
    metropolis_algorithm qlog quni 0 (-1) id qcgd () =
      Except.error "ValueError: negative dimensions are not allowed" :=
  mh_negative_steps_error qlog quni 0 (-1) id qcgd () (by norm_num)

/-- Witness for C8 at a concrete configuration and the seed 7. -/
theorem mh_deterministic_witness :
    metropolis_algorithm (fun _ => (⊥ : WithBot ℚ))
        (RState.next fun _ _ => (0 : ℚ)) 0 1 id (fun x g => (x, g)) ⟨7, 0⟩ =
      metropolis_algorithm (fun _ => (⊥ : WithBot ℚ))
        (RState.next fun _ _ => (0 : ℚ)) 0 1 id (fun x g => (x, g)) ⟨7, 0⟩ :=
  mh_deterministic _ _ _ _ _ _ 7 _ _ rfl rfl

/-- Witness for the amended C2 at a concrete step: candidate 1, uniform
draw 0, flat log-target. -/
theorem mh_zero_uniform_accepts_witness :
    mhAccepts npLog (fun _ => (0 : ℝ)) (fun _ _ => ((1 : ℝ), ()))
        (fun _ => ((0 : ℝ), ())) ((0 : ℝ), ()) ∧
      (mhStep npLog (fun _ => (0 : ℝ)) (fun _ _ => ((1 : ℝ), ()))
        (fun _ => ((0 : ℝ), ())) ((0 : ℝ), ())).1 = 1 :=
  mh_zero_uniform_accepts (fun _ => (0 : ℝ)) (fun _ _ => ((1 : ℝ), ()))
    (fun _ => ((0 : ℝ), ())) 0 () (by norm_num) rfl

/-- Witness for C10 at the parameter 2 and the draw 0. -/
theorem exponential_rvs_nonneg_witness :
    0 < 1 - (0 : ℝ) ∧ 0 ≤ exponential_rvs 2 0 :=
  exponential_rvs_nonneg 2 0 (by norm_num) (by norm_num) (by norm_num)

end MonteCarlo
